import Mathlib

/-!
A verification development for the source-code parsing and structural-query
engine described in the repository's specification.  The repository's own
source (`src/src-tauri/python_parser.py`) is a thin client of an external
parsing library: it registers languages, parses a fixed source string, runs
one query and prints the text of each captured node.  The engine itself
(grammar registry, error-tolerant incremental parser, syntax tree, query
engine) is not part of the repository's sources, so those components are
modelled here from the specification's data model and contracts; the final
output loop is embedded directly from the Python source.

Byte strings are modelled as `List Char` (all scenario sources are ASCII, so
byte offsets and character indices coincide).
-/

/-- A syntax-tree node, following the spec's data model: each node has a kind,
a byte range `[start, end)`, a flag marking syntax errors, and an ordered
child list with an optional field name per child. -/
inductive Node where
  | mk (kind : String) (startB : Nat) (endB : Nat) (isErr : Bool)
      (children : List (Option String × Node)) : Node
deriving Repr

/-- Kind of a node. -/
def Node.kind : Node → String
  | .mk k _ _ _ _ => k

/-- Start of a node's byte range. -/
def Node.startB : Node → Nat
  | .mk _ s _ _ _ => s

/-- End of a node's byte range (exclusive). -/
def Node.endB : Node → Nat
  | .mk _ _ e _ _ => e

/-- Whether the node is flagged as a syntax-error node. -/
def Node.isErr : Node → Bool
  | .mk _ _ _ b _ => b

/-- Ordered child list, with an optional field name per child. -/
def Node.children : Node → List (Option String × Node)
  | .mk _ _ _ _ cs => cs

/-- Modelled from the spec: a grammar is a named set of node-kind identifiers
and field names (the production rules live in the external compiled-grammar
artifact, which the spec leaves opaque). -/
structure Grammar where
  name : String
  kinds : List String
  fields : List String
deriving Repr, DecidableEq

/-- A character allowed inside an identifier. -/
def isIdentChar (c : Char) : Bool :=
  c.isAlphanum || c == '_'

/-- Scan for the first closing parenthesis, returning its index. -/
def findClose : List Char → Option Nat
  | [] => none
  | c :: rest =>
    if c == ')' then some 0
    else (findClose rest).map (· + 1)

/-- Modelled from the spec: recognizer for the toy grammar's single
production, a one-line function definition
`def <identifier> ( <params> ) : <body>`.  Returns
`(nameStart, nameLen, paramsStart, paramsEnd)` as offsets relative to the
statement, or `none` when the statement does not match the production. -/
def recognizeDef (s : List Char) : Option (Nat × Nat × Nat × Nat) :=
  match s with
  | 'd' :: 'e' :: 'f' :: ' ' :: rest =>
    let ilen := (rest.takeWhile isIdentChar).length
    if ilen == 0 then none
    else
      match rest.drop ilen with
      | '(' :: rest2 =>
        match findClose rest2 with
        | some j =>
          match rest2.drop (j + 1) with
          | ':' :: _ => some (4, ilen, 4 + ilen, 6 + ilen + j)
          | _ => none
        | none => none
      | _ => none
  | _ => none

/-- Whether a statement begins with the keyword `def`. -/
def startsWithDef (s : List Char) : Bool :=
  match s with
  | 'd' :: 'e' :: 'f' :: _ => true
  | _ => false

/-- Modelled from the spec: parse one top-level statement whose characters
are `s` and whose first byte sits at absolute offset `off`.  A statement
matching the function-definition production becomes a `function_definition`
node with `name`, `parameters` and `body` field children; a malformed
`def`-statement becomes an error node covering the statement (the parser's
recovery rule: skip to the next statement boundary); any other statement is
an `expression_statement` leaf. -/
def parseStmt (off : Nat) (s : List Char) : Node :=
  match recognizeDef s with
  | some (ns, ilen, ps, pe) =>
    .mk "function_definition" off (off + s.length) false
      [ (none, .mk "def" off (off + 3) false []),
        (some "name", .mk "identifier" (off + ns) (off + ns + ilen) false []),
        (some "parameters", .mk "parameters" (off + ps) (off + pe) false []),
        (some "body", .mk "block" (off + pe + 1) (off + s.length) false []) ]
  | none =>
    if startsWithDef s then .mk "ERROR" off (off + s.length) true []
    else .mk "expression_statement" off (off + s.length) false []

/-- Split source characters into lines, each paired with the absolute byte
offset of its first character; the terminating newline belongs to no line. -/
def linesAux (s : List Char) (off : Nat) : List (Nat × List Char) :=
  match s with
  | [] => []
  | c :: rest =>
    let line := (c :: rest).takeWhile (fun ch => !(ch == '\n'))
    (off, line) ::
      linesAux ((c :: rest).drop (line.length + 1)) (off + line.length + 1)
termination_by s.length
decreasing_by
  simp only [List.length_drop, List.length_cons]
  omega

/-- A line consisting only of spaces and tabs (or nothing). -/
def isBlankLine (s : List Char) : Bool :=
  s.all (fun c => c == ' ' || c == '\t')

/-- The top-level statement segments of a source: its non-blank lines, each
with the byte offset where it starts. -/
def segments (src : List Char) : List (Nat × List Char) :=
  (linesAux src 0).filter (fun p => !isBlankLine p.2)

/-- Modelled from the spec: a full (non-incremental) parse builds a `module`
root spanning `[0, len)` whose children are the parsed top-level
statements. -/
def parseFull (src : List Char) : Node :=
  .mk "module" 0 src.length false
    ((segments src).map (fun p => (none, parseStmt p.1 p.2)))

/-- A syntax tree: the root node together with the source bytes it was parsed
from (the library's trees retain the text, which is how `node.text` in the
client script works without re-supplying the source). -/
structure SyntaxTree where
  src : List Char
  root : Node
deriving Repr

/-- A byte-range edit descriptor: `oldLen` bytes starting at `start` are
replaced by `newText`. -/
structure Edit where
  start : Nat
  oldLen : Nat
  newText : List Char
deriving Repr

/-- Apply an edit descriptor to a source. -/
def applyEdit (e : Edit) (s : List Char) : List Char :=
  s.take e.start ++ e.newText ++ s.drop (e.start + e.oldLen)

/-- The slice of `len` bytes of `src` starting at offset `o`. -/
def sliceAt (src : List Char) (o len : Nat) : List Char :=
  (src.drop o).take len

/-- The text a node spans, read from the source it was parsed from. -/
def nodeText (src : List Char) (n : Node) : List Char :=
  sliceAt src n.startB (n.endB - n.startB)

mutual

/-- Re-anchor a node parsed at offset `o` so that it sits at offset `d`
instead (used when reusing a subtree across an incremental parse). -/
def shiftN (o d : Nat) : Node → Node
  | .mk k s e b cs => .mk k (s - o + d) (e - o + d) b (shiftKids o d cs)

/-- Re-anchor a child list; see `shiftN`. -/
def shiftKids (o d : Nat) :
    List (Option String × Node) → List (Option String × Node)
  | [] => []
  | (f, n) :: rest => (f, shiftN o d n) :: shiftKids o d rest

end

/-- The child of `n` whose byte range starts at offset `o`, if any. -/
def findChildAt (n : Node) (o : Nat) : Option Node :=
  (n.children.find? (fun c => c.2.startB == o)).map (·.2)

/-- Modelled from the spec: incremental parsing of one statement of the
edited source.  A statement whose byte range falls entirely outside the
edited region reuses the corresponding subtree of the previous tree (after
offset adjustment) when the previous tree has a statement of the same extent
and unchanged bytes there; otherwise the statement is re-parsed. -/
def incStmt (prev : SyntaxTree) (e : Edit) (o : Nat) (c : List Char) : Node :=
  if o + c.length ≤ e.start then
    match findChildAt prev.root o with
    | some old =>
      if old.endB = o + c.length ∧ sliceAt prev.src o c.length = c then old
      else parseStmt o c
    | none => parseStmt o c
  else if e.start + e.newText.length ≤ o then
    let o0 := o - e.newText.length + e.oldLen
    match findChildAt prev.root o0 with
    | some old =>
      if old.endB = o0 + c.length ∧ sliceAt prev.src o0 c.length = c then
        shiftN o0 o old
      else parseStmt o c
    | none => parseStmt o c
  else parseStmt o c

/-- Modelled from the spec: `parse(grammar, sourceBytes, previousTree)`.
With no previous tree this is a full parse; with a previous tree and an edit
descriptor, subtrees outside the edited region are reused and only the
affected statements are re-parsed.  The function is total: malformed input
never fails, it produces error nodes inside the tree instead. -/
def parse (g : Grammar) (src : List Char) :
    Option (SyntaxTree × Edit) → SyntaxTree
  | none => ⟨src, parseFull src⟩
  | some (prev, e) =>
    ⟨src, .mk "module" 0 src.length false
      ((segments src).map (fun p => (none, incStmt prev e p.1 p.2)))⟩

/-- The trees the parser can hand out: a full parse of some source, or an
incremental re-parse given a previously produced tree. -/
inductive IsParseResult : SyntaxTree → Prop where
  | full (g : Grammar) (src : List Char) : IsParseResult (parse g src none)
  | inc (g : Grammar) (src : List Char) (t : SyntaxTree) (e : Edit) :
      IsParseResult t → IsParseResult (parse g src (some (t, e)))

/-! ### Grammar registry -/

/-- Result of a registry lookup, following the spec's contract
`lookup(name) -> GrammarHandle | NotFoundError`. -/
inductive LookupResult where
  | found (g : Grammar)
  | notFoundError
deriving Repr, DecidableEq

/-- Modelled from the spec: the registry's process-wide state, a mapping from
language names to loaded grammars. -/
abbrev Registry : Type := List (String × Grammar)

/-- Modelled from the spec: `register(name, grammarData)` adds a grammar
under a name. -/
def registerGrammar (r : Registry) (n : String) (g : Grammar) : Registry :=
  (n, g) :: r

/-- Modelled from the spec: `lookup(name)` returns the grammar registered
under `name`, or `NotFoundError` when no such registration exists. -/
def lookupGrammar (r : Registry) (n : String) : LookupResult :=
  match r.find? (fun p => p.1 == n) with
  | some p => .found p.2
  | none => .notFoundError

/-- The toy Python grammar this development instantiates the engine with:
its node-kind vocabulary and field names. -/
def PYTHON : Grammar :=
  { name := "python",
    kinds := ["module", "function_definition", "identifier", "parameters",
              "block", "def", "expression_statement", "ERROR"],
    fields := ["name", "parameters", "body"] }

/-! ### Query engine -/

/-- A query pattern over node kinds and field names, as in the DSL
`(kind field: (kind) @capture-name)`.  Each kind reference and each field
reference records its byte offset into the pattern source, for
diagnostics. -/
inductive PatQ where
  | mk (kind : String) (kindOff : Nat) (capture : Option String)
      (children : List (Option (String × Nat) × PatQ)) : PatQ

/-- Compile error for a query pattern, carrying a byte offset into the
pattern source. -/
structure QueryCompileError where
  offset : Nat
deriving Repr, DecidableEq

/-- A compiled query: a pattern that passed grammar validation. -/
structure Query where
  pat : PatQ

mutual

/-- Validate a pattern against a grammar: every referenced node kind and
field name must belong to the grammar; the first offending reference's byte
offset is reported. -/
def checkPat (g : Grammar) : PatQ → Except QueryCompileError Unit
  | .mk k off _ pats =>
    if k ∈ g.kinds then checkKids g pats else .error ⟨off⟩

/-- Validate the sub-patterns of a pattern node; see `checkPat`. -/
def checkKids (g : Grammar) :
    List (Option (String × Nat) × PatQ) → Except QueryCompileError Unit
  | [] => .ok ()
  | (some (f, foff), p) :: rest =>
    if f ∈ g.fields then
      match checkPat g p with
      | .ok _ => checkKids g rest
      | .error e => .error e
    else .error ⟨foff⟩
  | (none, p) :: rest =>
    match checkPat g p with
    | .ok _ => checkKids g rest
    | .error e => .error e

end

/-- Modelled from the spec: `compile(grammar, patternSource)` fails with a
`QueryCompileError` when the pattern references unknown kinds or fields, and
otherwise returns the compiled query. -/
def compile (g : Grammar) (p : PatQ) : Except QueryCompileError Query :=
  match checkPat g p with
  | .ok _ => .ok ⟨p⟩
  | .error e => .error e

mutual

/-- All kind and field references of a pattern, in depth-first left-to-right
order.  An entry `(isField, name, offset)` records whether the reference is
a field name or a node kind, the referenced name, and its byte offset. -/
def patRefs : PatQ → List (Bool × String × Nat)
  | .mk k off _ pats => (false, k, off) :: kidRefs pats

/-- References of a sub-pattern list; see `patRefs`. -/
def kidRefs : List (Option (String × Nat) × PatQ) → List (Bool × String × Nat)
  | [] => []
  | (some (f, foff), p) :: rest => (true, f, foff) :: (patRefs p ++ kidRefs rest)
  | (none, p) :: rest => patRefs p ++ kidRefs rest

end

/-- Whether a reference names a kind or field unknown to the grammar. -/
def refUnknown (g : Grammar) (r : Bool × String × Nat) : Bool :=
  if r.1 then !(g.fields.contains r.2.1) else !(g.kinds.contains r.2.1)

/-- The child node filling field `f`, if any (`Node.fieldChild`). -/
def fieldChild (f : String) (cs : List (Option String × Node)) : Option Node :=
  (cs.find? (fun c => c.1 == some f)).map (·.2)

mutual

/-- Attempt to match a pattern at a node.  On a structural match, returns
the captures of the match: one `(captureName, node)` pair per named
sub-pattern, in left-to-right depth-first order; `none` when the pattern
does not match at this node. -/
def matchNode (p : PatQ) (n : Node) : Option (List (String × Node)) :=
  match p, n with
  | .mk k _ cap pats, .mk nk s e b cs =>
    if k = nk then
      (matchKids pats cs).map (fun caps =>
        (match cap with
         | some nm => [(nm, Node.mk nk s e b cs)]
         | none => []) ++ caps)
    else none
termination_by (sizeOf p, 0)
decreasing_by all_goals (simp_wf; omega)

/-- Verify the child and field constraints of a pattern against a node's
child list, collecting captures; see `matchNode`. -/
def matchKids (pats : List (Option (String × Nat) × PatQ))
    (cs : List (Option String × Node)) : Option (List (String × Node)) :=
  match pats with
  | [] => some []
  | (some (f, _), p) :: rest =>
    match fieldChild f cs with
    | some child =>
      match matchNode p child with
      | some caps1 => (matchKids rest cs).map (fun caps2 => caps1 ++ caps2)
      | none => none
    | none => none
  | (none, p) :: rest =>
    match firstMatch p cs with
    | some caps1 => (matchKids rest cs).map (fun caps2 => caps1 ++ caps2)
    | none => none
termination_by (sizeOf pats, 0)
decreasing_by all_goals (simp_wf; omega)

/-- Loose matching of an anonymous sub-pattern: the first child at which the
sub-pattern matches provides its captures. -/
def firstMatch (p : PatQ) (cs : List (Option String × Node)) :
    Option (List (String × Node)) :=
  match cs with
  | [] => none
  | (_, n) :: rest =>
    match matchNode p n with
    | some caps => some caps
    | none => firstMatch p rest
termination_by (sizeOf p, 1 + sizeOf cs)
decreasing_by all_goals (simp_wf; omega)

end

mutual

/-- The capture names of a pattern, in left-to-right depth-first order: one
per named sub-pattern. -/
def capNames : PatQ → List String
  | .mk _ _ cap pats =>
    (match cap with | some nm => [nm] | none => []) ++ kidCapNames pats

/-- Capture names of a sub-pattern list; see `capNames`. -/
def kidCapNames : List (Option (String × Nat) × PatQ) → List String
  | [] => []
  | (_, p) :: rest => capNames p ++ kidCapNames rest

end

mutual

/-- Pre-order traversal of a tree: parent before children, children left to
right. -/
def preorder : Node → List Node
  | .mk k s e b cs => .mk k s e b cs :: preKids cs

/-- Pre-order traversal of a child list; see `preorder`. -/
def preKids : List (Option String × Node) → List Node
  | [] => []
  | (_, n) :: rest => preorder n ++ preKids rest

end

mutual

/-- Number of nodes of a tree. -/
def nodeCount : Node → Nat
  | .mk _ _ _ _ cs => 1 + kidsCount cs

/-- Number of nodes of a child list; see `nodeCount`. -/
def kidsCount : List (Option String × Node) → Nat
  | [] => 0
  | (_, n) :: rest => nodeCount n + kidsCount rest

end

/-- The nodes of a child list, field names dropped. -/
def childNodes (n : Node) : List Node :=
  n.children.map (·.2)

/-- The captures a query emits at one node: the match's captures when the
pattern matches there, nothing otherwise. -/
def capsAt (q : PatQ) (n : Node) : List (String × Node) :=
  (matchNode q n).getD []

/-- Declarative semantics of query execution: visit every node of the tree
in pre-order and emit the captures of each structural match. -/
def capturesList (q : PatQ) (t : Node) : List (String × Node) :=
  (preorder t).flatMap (capsAt q)

/-- One-worklist-step-at-a-time execution of a query: pop a node, emit its
captures, push its children in order.  `fuel` bounds the number of steps. -/
def runQ (fuel : Nat) (q : PatQ) (stack : List Node) : List (String × Node) :=
  match fuel, stack with
  | _, [] => []
  | 0, _ :: _ => []
  | f + 1, n :: ns => capsAt q n ++ runQ f q (childNodes n ++ ns)

/-- Modelled from the spec: `Query.execute(tree)` produces the finite capture
sequence of the query over the tree, driven by the worklist machine with
enough fuel to exhaust the tree; each execution starts afresh from the
root. -/
def executeQ (q : Query) (t : Node) : List (String × Node) :=
  runQ (nodeCount t) q.pat [t]

/-! ### The client script (embedded from `src/src-tauri/python_parser.py`) -/

/-- The capture list the Python client receives: `query.captures(root)`
yields `(node, captureName)` pairs. -/
def scriptCaptures (q : Query) (t : Node) : List (Node × String) :=
  (executeQ q t).map (fun c => (c.2, c.1))

/-- The output loop of the script, embedded from the source: for each
`(node, capture_name)` pair it prints `Found function: ` followed by the
node's text decoded as UTF-8; `capture_name` is never used. -/
def scriptOutput (src : List Char) (captures : List (Node × String)) :
    List (List Char) :=
  captures.map (fun c => "Found function: ".data ++ nodeText src c.1)

mutual

/-- Whether a tree contains a node flagged as an error node. -/
def hasErrNode : Node → Bool
  | .mk _ _ _ b cs => b || kidsHaveErr cs

/-- Whether a child list contains an error node; see `hasErrNode`. -/
def kidsHaveErr : List (Option String × Node) → Bool
  | [] => false
  | (_, n) :: rest => hasErrNode n || kidsHaveErr rest

end

/-- Ordered, non-overlapping child ranges: each child ends at or before the
next child starts. -/
def kidsOrdered : List (Option String × Node) → Bool
  | [] => true
  | [_] => true
  | a :: b :: rest =>
    decide (a.2.endB ≤ b.2.startB) && kidsOrdered (b :: rest)

mutual

/-- The spec's tree invariants, checked recursively: every child's byte
range is contained in its parent's, and children are non-overlapping and in
increasing order. -/
def rangesOK : Node → Bool
  | .mk _ s e _ cs =>
    cs.all (fun c => decide (s ≤ c.2.startB) && decide (c.2.endB ≤ e)) &&
      kidsOrdered cs && kidsOK cs

/-- The invariants of `rangesOK`, for every node of a child list. -/
def kidsOK : List (Option String × Node) → Bool
  | [] => true
  | (_, n) :: rest => rangesOK n && kidsOK rest

end

/-- Total node count of a worklist. -/
def listCount (l : List Node) : Nat := (l.map nodeCount).sum

/-- The pattern `(function_definition name: (identifier) @fn)`, with the
byte offset of each kind and field reference into the pattern source. -/
def fnPat : PatQ :=
  .mk "function_definition" 1 none
    [(some ("name", 21), .mk "identifier" 28 (some "fn") [])]

/-- The kind and range start of a node: distinct for distinct nodes of any
tree the parser produces. -/
def nodeKey (n : Node) : String × Nat := (n.kind, n.startB)

/-- A pattern referencing a node kind outside the Python grammar, with the
kind reference at byte offset 1 of its pattern source. -/
def badPat : PatQ := .mk "cobol_statement" 1 none []

/-! ### Basic lemmas about the parser -/

theorem parseStmt_startB (off : Nat) (c : List Char) :
    (parseStmt off c).startB = off := by
  unfold parseStmt
  cases h : recognizeDef c with
  | some v =>
    obtain ⟨ns, ilen, ps, pe⟩ := v
    simp [Node.startB]
  | none =>
    by_cases hd : startsWithDef c <;> simp [hd, Node.startB]

theorem parseStmt_endB (off : Nat) (c : List Char) :
    (parseStmt off c).endB = off + c.length := by
  unfold parseStmt
  cases h : recognizeDef c with
  | some v =>
    obtain ⟨ns, ilen, ps, pe⟩ := v
    simp [Node.endB]
  | none =>
    by_cases hd : startsWithDef c <;> simp [hd, Node.endB]

/-- The claim of `C3`, for both the full and the incremental entry point:
the root node of every parse spans exactly the whole source. -/
theorem parse_root_startB (g : Grammar) (s : List Char)
    (prev : Option (SyntaxTree × Edit)) : (parse g s prev).root.startB = 0 := by
  cases prev with
  | none => simp [parse, parseFull, Node.startB]
  | some pe => obtain ⟨t, e⟩ := pe; simp [parse, Node.startB]

theorem parse_root_endB (g : Grammar) (s : List Char)
    (prev : Option (SyntaxTree × Edit)) :
    (parse g s prev).root.endB = s.length := by
  cases prev with
  | none => simp [parse, parseFull, Node.endB]
  | some pe => obtain ⟨t, e⟩ := pe; simp [parse, Node.endB]

theorem parse_src (g : Grammar) (s : List Char)
    (prev : Option (SyntaxTree × Edit)) : (parse g s prev).src = s := by
  cases prev with
  | none => simp [parse]
  | some pe => obtain ⟨t, e⟩ := pe; simp [parse]

/-- C3: for every source byte string S of length N parsed with a grammar G
(with or without a previous tree), the root node of the returned tree has
byte range exactly `[0, N)`.  This holds for all sources, in particular the
valid ones. -/
theorem parse_root_spans_source (g : Grammar) (s : List Char)
    (prev : Option (SyntaxTree × Edit)) :
    (parse g s prev).root.startB = 0 ∧
      (parse g s prev).root.endB = s.length :=
  ⟨parse_root_startB g s prev, parse_root_endB g s prev⟩

/-- C2: parse never throws — it is a total function producing a `module`
root spanning the input for every source byte string, including syntactically
invalid ones; in particular, parsing the 7-byte source `def f(:` yields a
tree containing an error node whose root spans `[0, 7)`. -/
theorem parse_malformed_recovers :
    (∀ (g : Grammar) (s : List Char),
        (parse g s none).root.kind = "module" ∧
        (parse g s none).root.startB = 0 ∧
        (parse g s none).root.endB = s.length) ∧
      hasErrNode (parse PYTHON "def f(:".data none).root = true ∧
      (parse PYTHON "def f(:".data none).root.startB = 0 ∧
      (parse PYTHON "def f(:".data none).root.endB = 7 := by
  refine ⟨fun g s => ⟨?_, parse_root_startB g s none, parse_root_endB g s none⟩,
    ?_, parse_root_startB _ _ none, parse_root_endB _ _ none⟩
  · simp [parse, parseFull, Node.kind]
  · simp [parse, parseFull, segments, linesAux, isBlankLine, parseStmt,
      recognizeDef, startsWithDef, isIdentChar, findClose, hasErrNode,
      kidsHaveErr]

/-! ### Grammar registry: C9 -/

/-- C9: `lookup(name)` on a registry in which `name` was never registered
returns `NotFoundError` rather than crashing, for every such name; in
particular for `"cobol"`. -/
theorem lookup_unregistered_not_found (r : Registry) (n : String)
    (h : ∀ p ∈ r, p.1 ≠ n) :
    lookupGrammar r n = .notFoundError := by
  unfold lookupGrammar
  have : r.find? (fun p => p.1 == n) = none := by
    rw [List.find?_eq_none]
    intro p hp
    simpa using h p hp
  rw [this]

/-- Witness for C9: a registry holding only the Python grammar answers
`NotFoundError` for the never-registered name `"cobol"`. -/
theorem lookup_unregistered_not_found_witness :
    lookupGrammar (registerGrammar [] "python" PYTHON) "cobol" =
      .notFoundError :=
  lookup_unregistered_not_found _ "cobol" (by decide)

/-! ### The output loop: C10 -/

theorem scriptOutput_map (src : List Char) (caps : List (Node × String)) :
    scriptOutput src caps =
      (caps.map Prod.fst).map
        (fun n => "Found function: ".data ++ nodeText src n) := by
  simp [scriptOutput, List.map_map]

/-- C10: the script's output loop ignores the capture name — each printed
line is `Found function: ` followed by the node's text, and any two capture
lists with the same nodes produce identical output, whatever their capture
names. -/
theorem output_ignores_capture_name :
    (∀ (src : List Char) (caps : List (Node × String)),
        scriptOutput src caps =
          caps.map (fun c => "Found function: ".data ++ nodeText src c.1)) ∧
      ∀ (src : List Char) (caps1 caps2 : List (Node × String)),
        caps1.map Prod.fst = caps2.map Prod.fst →
        scriptOutput src caps1 = scriptOutput src caps2 := by
  refine ⟨fun src caps => rfl, fun src caps1 caps2 h => ?_⟩
  rw [scriptOutput_map, scriptOutput_map, h]

/-- Witness for C10: two one-capture lists naming the same node `@fn` and
`@function-name` print the same line. -/
theorem output_ignores_capture_name_witness :
    scriptOutput "def fibonacci(n): pass".data
        [(Node.mk "identifier" 4 13 false [], "fn")] =
      scriptOutput "def fibonacci(n): pass".data
        [(Node.mk "identifier" 4 13 false [], "function-name")] :=
  output_ignores_capture_name.2 _ _ _ rfl

/-! ### Query execution: the worklist machine against the declarative
pre-order semantics -/

theorem preKids_eq (cs : List (Option String × Node)) :
    preKids cs = (cs.map (·.2)).flatMap preorder := by
  induction cs with
  | nil => simp [preKids]
  | cons c rest ih =>
    obtain ⟨f, n⟩ := c
    simp [preKids, ih]

theorem nodeCount_pos (n : Node) : 1 ≤ nodeCount n := by
  cases n
  simp [nodeCount]

theorem kidsCount_eq (cs : List (Option String × Node)) :
    kidsCount cs = listCount (cs.map (·.2)) := by
  induction cs with
  | nil => simp [kidsCount, listCount]
  | cons c rest ih =>
    obtain ⟨f, n⟩ := c
    simp [kidsCount, listCount, ih]

theorem capturesList_unfold (q : PatQ) (n : Node) :
    capturesList q n = capsAt q n ++ (childNodes n).flatMap (capturesList q) := by
  cases n with
  | mk k s e b cs =>
    simp [capturesList, preorder, preKids_eq, childNodes, Node.children,
      List.flatMap_assoc]
    rfl

theorem runQ_adequate (q : PatQ) :
    ∀ (fuel : Nat) (stack : List Node), listCount stack ≤ fuel →
      runQ fuel q stack = stack.flatMap (capturesList q) := by
  intro fuel
  induction fuel with
  | zero =>
    intro stack h
    cases stack with
    | nil => simp [runQ]
    | cons n ns =>
      have := nodeCount_pos n
      simp [listCount] at h
      omega
  | succ f ih =>
    intro stack h
    cases stack with
    | nil => simp [runQ]
    | cons n ns =>
      have hc : nodeCount n = 1 + kidsCount n.children := by
        cases n
        simp [nodeCount, Node.children]
      have h2 : listCount (childNodes n ++ ns) ≤ f := by
        rw [kidsCount_eq] at hc
        simp only [listCount, List.map_cons, List.sum_cons, List.map_append,
          List.sum_append] at h ⊢
        simp only [childNodes, listCount] at hc ⊢
        omega
      simp only [runQ]
      rw [ih _ h2, List.flatMap_append, List.flatMap_cons,
        capturesList_unfold q n, List.append_assoc]

/-- Executing a query equals the declarative pre-order capture list. -/
theorem execute_eq_capturesList (q : Query) (t : Node) :
    executeQ q t = capturesList q.pat t := by
  unfold executeQ
  rw [runQ_adequate q.pat (nodeCount t) [t] (by simp [listCount])]
  simp

/-- C6: query execution is restartable and deterministic — two executions of
a compiled query on the same tree produce the same finite capture sequence
(and that sequence is the declarative pre-order capture list). -/
theorem query_execution_deterministic (q : Query) (t : Node) :
    executeQ q t = executeQ q t ∧ executeQ q t = capturesList q.pat t :=
  ⟨rfl, execute_eq_capturesList q t⟩

/-! ### The demonstration query: C1 -/

/-- C1: the query `(function_definition name: (identifier) @fn)` compiles
against the Python grammar and, executed on the tree parsed from
`def fibonacci(n): pass`, yields exactly one capture, named `fn`, whose
node's text is `fibonacci`. -/
theorem query_fibonacci_single_capture :
    compile PYTHON fnPat = .ok ⟨fnPat⟩ ∧
      executeQ ⟨fnPat⟩ (parse PYTHON "def fibonacci(n): pass".data none).root =
        [("fn", Node.mk "identifier" 4 13 false [])] ∧
      nodeText (parse PYTHON "def fibonacci(n): pass".data none).src
        (Node.mk "identifier" 4 13 false []) = "fibonacci".data := by
  refine ⟨rfl, ?_, ?_⟩
  · simp [executeQ, runQ, nodeCount, kidsCount, capsAt, matchNode, matchKids,
      firstMatch, fieldChild, parse, parseFull, segments, linesAux,
      isBlankLine, parseStmt, recognizeDef, startsWithDef, isIdentChar,
      findClose, Node.children, fnPat, PYTHON]
  · simp [parse, nodeText, sliceAt, Node.startB, Node.endB]

/-! ### Segmentation lemmas: where statements sit inside the source -/

theorem linesAux_mem :
    ∀ (N : Nat) (s : List Char), s.length ≤ N →
    ∀ (off o : Nat) (c : List Char), (o, c) ∈ linesAux s off →
      off ≤ o ∧ c = sliceAt s (o - off) c.length ∧
        o - off + c.length ≤ s.length := by
  intro N
  induction N with
  | zero =>
    intro s hs off o c hm
    have hnil : s = [] := List.eq_nil_of_length_eq_zero (Nat.le_zero.mp hs)
    subst hnil
    simp [linesAux] at hm
  | succ N ih =>
    intro s hs off o c hm
    cases s with
    | nil => simp [linesAux] at hm
    | cons a rest =>
      simp only [linesAux] at hm
      rcases List.mem_cons.mp hm with heq | htail
      · obtain ⟨ho, hc⟩ := Prod.mk.injEq .. ▸ heq
        have hpre := List.takeWhile_prefix (l := a :: rest)
          (fun ch => !(ch == '\n'))
        refine ⟨Nat.le_of_eq ho.symm, ?_, ?_⟩
        · rw [hc, ho, Nat.sub_self]
          simpa [sliceAt] using List.prefix_iff_eq_take.mp hpre
        · rw [hc, ho, Nat.sub_self]
          simpa using hpre.length_le
      · set L := ((a :: rest).takeWhile (fun ch => !(ch == '\n'))).length
          with hL
        have hlen : ((a :: rest).drop (L + 1)).length ≤ N := by
          simp only [List.length_drop]
          have := hs
          simp only [List.length_cons] at this ⊢
          omega
        obtain ⟨h1, h2, h3⟩ := ih _ hlen _ _ _ htail
        cases hdrop : (a :: rest).drop (L + 1) with
        | nil =>
          rw [hdrop] at htail
          simp [linesAux] at htail
        | cons b brest =>
          have hdlen : (a :: rest).length - (L + 1) = brest.length + 1 := by
            have := congrArg List.length hdrop
            simpa [List.length_drop] using this
          rw [List.length_drop] at h3
          refine ⟨by omega, ?_, by omega⟩
          have harith : L + 1 + (o - (off + L + 1)) = o - off := by omega
          refine h2.trans ?_
          simp only [sliceAt, List.drop_drop]
          rw [harith]

theorem linesAux_pairwise :
    ∀ (N : Nat) (s : List Char), s.length ≤ N → ∀ off : Nat,
      (linesAux s off).Pairwise (fun a b => a.1 + a.2.length < b.1) := by
  intro N
  induction N with
  | zero =>
    intro s hs off
    have hnil : s = [] := List.eq_nil_of_length_eq_zero (Nat.le_zero.mp hs)
    subst hnil
    simp [linesAux]
  | succ N ih =>
    intro s hs off
    cases s with
    | nil => simp [linesAux]
    | cons a rest =>
      simp only [linesAux]
      set L := ((a :: rest).takeWhile (fun ch => !(ch == '\n'))).length
        with hL
      have hlen : ((a :: rest).drop (L + 1)).length ≤ N := by
        simp only [List.length_drop, List.length_cons]
        simp only [List.length_cons] at hs
        omega
      refine List.Pairwise.cons ?_ (ih _ hlen _)
      intro b hb
      have := (linesAux_mem N _ hlen _ _ _ hb).1
      simp only []
      omega

theorem segments_mem {src : List Char} {o : Nat} {c : List Char}
    (h : (o, c) ∈ segments src) :
    c = sliceAt src o c.length ∧ o + c.length ≤ src.length := by
  have h' := (List.mem_filter.mp h).1
  have := linesAux_mem src.length src le_rfl 0 o c h'
  simpa using this

theorem segments_pairwise (src : List Char) :
    (segments src).Pairwise (fun a b => a.1 + a.2.length < b.1) :=
  (linesAux_pairwise src.length src le_rfl 0).filter _

/-! ### Range invariants: C4 -/

theorem recognizeDef_spec {s : List Char} {ns ilen ps pe : Nat}
    (h : recognizeDef s = some (ns, ilen, ps, pe)) :
    ns = 4 ∧ 1 ≤ ilen ∧ ps = 4 + ilen ∧ ps + 2 ≤ pe ∧ pe + 1 ≤ s.length := by
  unfold recognizeDef at h
  split at h
  case _ rest =>
    simp only [] at h
    by_cases hz : ((rest.takeWhile isIdentChar).length == 0) = true
    · rw [if_pos hz] at h
      exact absurd h (by simp)
    · rw [if_neg hz] at h
      have hil : 1 ≤ (rest.takeWhile isIdentChar).length :=
        Nat.pos_of_ne_zero (fun h0 => hz (by simp [h0]))
      have hilr : (rest.takeWhile isIdentChar).length ≤ rest.length :=
        (List.takeWhile_prefix isIdentChar).length_le
      split at h
      case _ c2 rest2 hdrop =>
        have hrl : rest.length - (rest.takeWhile isIdentChar).length =
            rest2.length + 1 := by
          have := congrArg List.length hdrop
          simpa [List.length_drop] using this
        split at h
        case _ j hfind =>
          split at h
          case _ tl hdrop2 =>
            have hrl2 : rest2.length - (j + 1) = tl.length + 1 := by
              have := congrArg List.length hdrop2
              simpa [List.length_drop] using this
            obtain ⟨hns, hilen, hps, hpe⟩ :
                4 = ns ∧ (rest.takeWhile isIdentChar).length = ilen ∧
                  4 + (rest.takeWhile isIdentChar).length = ps ∧
                  6 + (rest.takeWhile isIdentChar).length + j = pe := by
              simpa using h
            simp only [List.length_cons]
            omega
          case _ =>
            exact absurd h (by simp)
        case _ => exact absurd h (by simp)
      case _ => exact absurd h (by simp)
  case _ => exact absurd h (by simp)

theorem parseStmt_rangesOK (off : Nat) (c : List Char) :
    rangesOK (parseStmt off c) = true := by
  unfold parseStmt
  cases h : recognizeDef c with
  | some v =>
    obtain ⟨ns, ilen, ps, pe⟩ := v
    obtain ⟨hns, hilen, hps, hpe, hlen⟩ := recognizeDef_spec h
    subst hns hps
    simp [rangesOK, kidsOK, kidsOrdered, Node.startB, Node.endB]
    omega
  | none =>
    by_cases hd : startsWithDef c <;>
      simp [hd, rangesOK, kidsOK, kidsOrdered]

theorem kidsOK_iff (cs : List (Option String × Node)) :
    kidsOK cs = true ↔ ∀ c ∈ cs, rangesOK c.2 = true := by
  induction cs with
  | nil => simp [kidsOK]
  | cons c rest ih =>
    obtain ⟨f, n⟩ := c
    simp [kidsOK, ih]

theorem kidsOrdered_iff (cs : List (Option String × Node)) :
    kidsOrdered cs = true ↔
      List.Chain' (fun a b => a.2.endB ≤ b.2.startB) cs := by
  induction cs with
  | nil => simp [kidsOrdered]
  | cons a tail ih =>
    cases tail with
    | nil => simp [kidsOrdered]
    | cons b rest =>
      rw [kidsOrdered, List.chain'_cons]
      simp [ih]

theorem parseFull_rangesOK (src : List Char) :
    rangesOK (parseFull src) = true := by
  rw [parseFull, rangesOK]
  simp only [Bool.and_eq_true]
  refine ⟨⟨?_, ?_⟩, ?_⟩
  · rw [List.all_eq_true]
    rintro ⟨f, n⟩ hmem
    obtain ⟨⟨o, cc⟩, hseg, heq⟩ := List.mem_map.mp hmem
    obtain ⟨hf, hn⟩ := Prod.mk.injEq .. ▸ heq
    subst hn
    have hb := (segments_mem hseg).2
    simp [parseStmt_startB, parseStmt_endB]
    omega
  · rw [kidsOrdered_iff, List.chain'_map]
    refine List.Pairwise.chain' ?_
    refine (segments_pairwise src).imp ?_
    rintro ⟨o1, c1⟩ ⟨o2, c2⟩ hlt
    simp at hlt
    simp [parseStmt_startB, parseStmt_endB]
    omega
  · rw [kidsOK_iff]
    rintro ⟨f, n⟩ hmem
    obtain ⟨⟨o, cc⟩, hseg, heq⟩ := List.mem_map.mp hmem
    obtain ⟨hf, hn⟩ := Prod.mk.injEq .. ▸ heq
    subst hn
    exact parseStmt_rangesOK o cc

/-! ### Incremental re-parse: C5 -/

theorem shiftN_parseStmt (o d : Nat) (c : List Char) :
    shiftN o d (parseStmt o c) = parseStmt d c := by
  unfold parseStmt
  cases h : recognizeDef c with
  | some v =>
    obtain ⟨ns, ilen, ps, pe⟩ := v
    simp [shiftN, shiftKids]
    omega
  | none =>
    by_cases hd : startsWithDef c <;> simp [hd, shiftN, shiftKids] <;> omega

theorem findChildAt_parseFull {src : List Char} {o : Nat} {old : Node}
    (h : findChildAt (parseFull src) o = some old) :
    ∃ cc, (o, cc) ∈ segments src ∧ old = parseStmt o cc := by
  unfold findChildAt at h
  obtain ⟨a, hfind, ha⟩ := Option.map_eq_some'.mp h
  have hmem := List.mem_of_find?_eq_some hfind
  have hp := List.find?_some hfind
  rw [parseFull, Node.children] at hmem
  obtain ⟨⟨o0, cc⟩, hseg, hae⟩ := List.mem_map.mp hmem
  subst hae
  simp only [parseStmt_startB, beq_iff_eq] at hp
  subst hp
  exact ⟨cc, hseg, ha.symm⟩

theorem incStmt_eq (pt : SyntaxTree) (hroot : pt.root = parseFull pt.src)
    (e : Edit) (o : Nat) (c : List Char) :
    incStmt pt e o c = parseStmt o c := by
  unfold incStmt
  by_cases h1 : o + c.length ≤ e.start
  · simp only [h1, if_true]
    cases hf : findChildAt pt.root o with
    | none => rfl
    | some old =>
      simp only []
      by_cases hcond : old.endB = o + c.length ∧ sliceAt pt.src o c.length = c
      · simp only [hcond, if_pos, and_self]
        rw [hroot] at hf
        obtain ⟨cc, hseg, hold⟩ := findChildAt_parseFull hf
        obtain ⟨hend, hslice⟩ := hcond
        rw [hold, parseStmt_endB] at hend
        have hlen : cc.length = c.length := by omega
        have hcceq : cc = c := by
          have := (segments_mem hseg).1
          rw [this, hlen, hslice]
        rw [hold, hcceq]
      · rw [if_neg hcond]
  · simp only [h1, if_false]
    by_cases h2 : e.start + e.newText.length ≤ o
    · simp only [h2, if_true]
      cases hf : findChildAt pt.root (o - e.newText.length + e.oldLen) with
      | none => rfl
      | some old =>
        simp only []
        by_cases hcond : old.endB = o - e.newText.length + e.oldLen + c.length ∧
            sliceAt pt.src (o - e.newText.length + e.oldLen) c.length = c
        · simp only [hcond, if_pos, and_self]
          rw [hroot] at hf
          obtain ⟨cc, hseg, hold⟩ := findChildAt_parseFull hf
          obtain ⟨hend, hslice⟩ := hcond
          rw [hold, parseStmt_endB] at hend
          have hlen : cc.length = c.length := by omega
          have hcceq : cc = c := by
            have := (segments_mem hseg).1
            rw [this, hlen, hslice]
          rw [hold, hcceq, shiftN_parseStmt]
        · rw [if_neg hcond]
    · simp only [h2, if_false]

theorem parse_inc_eq_full (pt : SyntaxTree)
    (hroot : pt.root = parseFull pt.src) (g : Grammar) (s : List Char)
    (e : Edit) : parse g s (some (pt, e)) = parse g s none := by
  simp only [parse, parseFull]
  have : (fun p : Nat × List Char => ((none : Option String),
      incStmt pt e p.1 p.2)) = fun p => (none, parseStmt p.1 p.2) :=
    funext fun p => by rw [incStmt_eq pt hroot]
  rw [this]

theorem isParseResult_root {t : SyntaxTree} (h : IsParseResult t) :
    t.root = parseFull t.src := by
  induction h with
  | full g src => simp [parse]
  | inc g src t e hprev ih =>
    rw [parse_inc_eq_full t ih g src e]
    simp [parse]

/-- C5: incremental parse is observably equivalent to full parse — re-parsing
the edited source with the previous tree yields exactly the tree a full parse
of the edited source yields (same kinds, ranges, and text). -/
theorem incremental_parse_matches_full (g : Grammar) (s s' : List Char)
    (e : Edit) (t : SyntaxTree) (ht : t = parse g s none)
    (hs : s' = applyEdit e s) :
    parse g s' (some (t, e)) = parse g s' none :=
  parse_inc_eq_full t (by rw [ht]; simp [parse]) g s' e

/-- Witness for C5: prepending a line to a one-function source and re-parsing
incrementally gives the same tree as a full parse. -/
theorem incremental_parse_matches_full_witness :
    parse PYTHON "x = 1\ndef f(n): pass".data
        (some (parse PYTHON "def f(n): pass".data none,
          ⟨0, 0, "x = 1\n".data⟩)) =
      parse PYTHON "x = 1\ndef f(n): pass".data none :=
  incremental_parse_matches_full PYTHON "def f(n): pass".data
    "x = 1\ndef f(n): pass".data ⟨0, 0, "x = 1\n".data⟩
    (parse PYTHON "def f(n): pass".data none) rfl (by decide)

/-- C4: in every tree the parser produces, children's byte ranges are
contained in their parent's and are non-overlapping and in increasing
order. -/
theorem parse_tree_range_invariants (t : SyntaxTree) (h : IsParseResult t) :
    rangesOK t.root = true := by
  rw [isParseResult_root h]
  exact parseFull_rangesOK t.src

/-- Witness for C4: the invariants hold on the tree parsed from the
scenario source. -/
theorem parse_tree_range_invariants_witness :
    rangesOK (parse PYTHON "def fibonacci(n): pass".data none).root = true :=
  parse_tree_range_invariants _ (IsParseResult.full PYTHON _)

/-! ### Query compilation: C8 -/

mutual

theorem checkPat_ok_iff (g : Grammar) (p : PatQ) :
    checkPat g p = .ok () ↔ ∀ r ∈ patRefs p, refUnknown g r = false := by
  cases p with
  | mk k off cap pats =>
    rw [checkPat, patRefs]
    by_cases hk : k ∈ g.kinds
    · rw [if_pos hk, checkKids_ok_iff g pats]
      constructor
      · intro h r hr
        rcases List.mem_cons.mp hr with heq | htail
        · subst heq
          simp [refUnknown, hk]
        · exact h r htail
      · intro h r hr
        exact h r (List.mem_cons_of_mem _ hr)
    · rw [if_neg hk]
      constructor
      · intro h
        exact absurd h (by simp)
      · intro h
        have := h (false, k, off) (List.mem_cons_self _ _)
        simp [refUnknown] at this
        exact absurd this hk

theorem checkKids_ok_iff (g : Grammar)
    (pats : List (Option (String × Nat) × PatQ)) :
    checkKids g pats = .ok () ↔ ∀ r ∈ kidRefs pats, refUnknown g r = false := by
  cases pats with
  | nil => simp [checkKids, kidRefs]
  | cons hd rest =>
    obtain ⟨fopt, p⟩ := hd
    cases fopt with
    | some fo =>
      obtain ⟨f, foff⟩ := fo
      rw [checkKids, kidRefs]
      by_cases hf : f ∈ g.fields
      · rw [if_pos hf]
        cases hcp : checkPat g p with
        | ok u =>
          cases u
          have hall := (checkPat_ok_iff g p).mp hcp
          rw [checkKids_ok_iff g rest]
          constructor
          · intro h r hr
            rcases List.mem_cons.mp hr with heq | htail
            · subst heq
              simp [refUnknown, hf]
            · rcases List.mem_append.mp htail with hp | hrest
              · exact hall r hp
              · exact h r hrest
          · intro h r hr
            exact h r (List.mem_cons_of_mem _ (List.mem_append_right _ hr))
        | error e =>
          constructor
          · intro h
            exact absurd h (by simp)
          · intro h
            have hok : checkPat g p = .ok () := by
              rw [checkPat_ok_iff g p]
              intro r hr
              exact h r (List.mem_cons_of_mem _ (List.mem_append_left _ hr))
            rw [hok] at hcp
            exact absurd hcp (by simp)
      · rw [if_neg hf]
        constructor
        · intro h
          exact absurd h (by simp)
        · intro h
          have := h (true, f, foff) (List.mem_cons_self _ _)
          simp [refUnknown] at this
          exact absurd this hf
    | none =>
      rw [checkKids, kidRefs]
      cases hcp : checkPat g p with
      | ok u =>
        cases u
        have hall := (checkPat_ok_iff g p).mp hcp
        rw [checkKids_ok_iff g rest]
        constructor
        · intro h r hr
          rcases List.mem_append.mp hr with hp | hrest
          · exact hall r hp
          · exact h r hrest
        · intro h r hr
          exact h r (List.mem_append_right _ hr)
      | error e =>
        constructor
        · intro h
          exact absurd h (by simp)
        · intro h
          have hok : checkPat g p = .ok () := by
            rw [checkPat_ok_iff g p]
            intro r hr
            exact h r (List.mem_append_left _ hr)
          rw [hok] at hcp
          exact absurd hcp (by simp)

end

mutual

theorem checkPat_error (g : Grammar) (p : PatQ) (e : QueryCompileError)
    (h : checkPat g p = .error e) :
    ∃ r ∈ patRefs p, refUnknown g r = true ∧ r.2.2 = e.offset := by
  cases p with
  | mk k off cap pats =>
    rw [checkPat] at h
    by_cases hk : k ∈ g.kinds
    · rw [if_pos hk] at h
      obtain ⟨r, hr, hu, ho⟩ := checkKids_error g pats e h
      exact ⟨r, by rw [patRefs]; exact List.mem_cons_of_mem _ hr, hu, ho⟩
    · rw [if_neg hk] at h
      have he : e = ⟨off⟩ := by
        cases h
        rfl
      subst he
      refine ⟨(false, k, off), by rw [patRefs]; exact List.mem_cons_self _ _,
        ?_, rfl⟩
      simp [refUnknown]
      exact hk

theorem checkKids_error (g : Grammar)
    (pats : List (Option (String × Nat) × PatQ)) (e : QueryCompileError)
    (h : checkKids g pats = .error e) :
    ∃ r ∈ kidRefs pats, refUnknown g r = true ∧ r.2.2 = e.offset := by
  cases pats with
  | nil => exact absurd h (by simp [checkKids])
  | cons hd rest =>
    obtain ⟨fopt, p⟩ := hd
    cases fopt with
    | some fo =>
      obtain ⟨f, foff⟩ := fo
      rw [checkKids] at h
      by_cases hf : f ∈ g.fields
      · rw [if_pos hf] at h
        cases hcp : checkPat g p with
        | ok u =>
          cases u
          rw [hcp] at h
          obtain ⟨r, hr, hu, ho⟩ := checkKids_error g rest e h
          exact ⟨r, by
            rw [kidRefs]
            exact List.mem_cons_of_mem _ (List.mem_append_right _ hr), hu, ho⟩
        | error e0 =>
          rw [hcp] at h
          have he : e0 = e := by
            cases h
            rfl
          subst he
          obtain ⟨r, hr, hu, ho⟩ := checkPat_error g p e0 hcp
          exact ⟨r, by
            rw [kidRefs]
            exact List.mem_cons_of_mem _ (List.mem_append_left _ hr), hu, ho⟩
      · rw [if_neg hf] at h
        have he : e = ⟨foff⟩ := by
          cases h
          rfl
        subst he
        refine ⟨(true, f, foff), by
          rw [kidRefs]
          exact List.mem_cons_self _ _, ?_, rfl⟩
        simp [refUnknown]
        exact hf
    | none =>
      rw [checkKids] at h
      cases hcp : checkPat g p with
      | ok u =>
        cases u
        rw [hcp] at h
        obtain ⟨r, hr, hu, ho⟩ := checkKids_error g rest e h
        exact ⟨r, by
          rw [kidRefs]
          exact List.mem_append_right _ hr, hu, ho⟩
      | error e0 =>
        rw [hcp] at h
        have he : e0 = e := by
          cases h
          rfl
        subst he
        obtain ⟨r, hr, hu, ho⟩ := checkPat_error g p e0 hcp
        exact ⟨r, by
          rw [kidRefs]
          exact List.mem_append_left _ hr, hu, ho⟩

end

/-- C8: `compile(grammar, patternSource)` fails with a `QueryCompileError`
carrying a byte offset into the pattern source exactly when the pattern
references a node kind or field name unknown to the grammar (the offset is
the offset of such a reference); otherwise it returns the compiled query. -/
theorem compile_rejects_unknown_refs (g : Grammar) (p : PatQ) :
    ((∃ e, compile g p = .error e) ↔
      ∃ r ∈ patRefs p, refUnknown g r = true) ∧
    (∀ e, compile g p = .error e →
      ∃ r ∈ patRefs p, refUnknown g r = true ∧ r.2.2 = e.offset) ∧
    ((∀ r ∈ patRefs p, refUnknown g r = false) → compile g p = .ok ⟨p⟩) := by
  unfold compile
  cases hcp : checkPat g p with
  | ok u =>
    cases u
    have hall := (checkPat_ok_iff g p).mp hcp
    refine ⟨⟨?_, ?_⟩, ?_, ?_⟩
    · rintro ⟨e, he⟩
      exact absurd he (by simp)
    · rintro ⟨r, hr, hu⟩
      rw [hall r hr] at hu
      exact absurd hu (by simp)
    · intro e he
      exact absurd he (by simp)
    · intro _
      rfl
  | error e0 =>
    refine ⟨⟨?_, ?_⟩, ?_, ?_⟩
    · intro _
      obtain ⟨r, hr, hu, _⟩ := checkPat_error g p e0 hcp
      exact ⟨r, hr, hu⟩
    · intro _
      exact ⟨e0, rfl⟩
    · intro e he
      have he0 : e0 = e := by
        cases he
        rfl
      subst he0
      exact checkPat_error g p e0 hcp
    · intro hall
      rw [← checkPat_ok_iff g p] at hall
      rw [hall] at hcp
      exact absurd hcp (by simp)

/-- Witness for C8: the pattern `(cobol_statement)` is rejected against the
Python grammar with the offset of the unknown kind reference. -/
theorem compile_rejects_unknown_refs_witness :
    ∃ r ∈ patRefs badPat, refUnknown PYTHON r = true ∧
      r.2.2 = (QueryCompileError.mk 1).offset :=
  (compile_rejects_unknown_refs PYTHON badPat).2.1 ⟨1⟩
    (by simp [compile, checkPat, badPat, PYTHON])

/-! ### Traversal order and captures: C7 -/

theorem firstMatch_names_of (p : PatQ)
    (hp : ∀ (n : Node) (caps : List (String × Node)),
      matchNode p n = some caps → caps.map Prod.fst = capNames p) :
    ∀ (cs : List (Option String × Node)) (caps : List (String × Node)),
      firstMatch p cs = some caps → caps.map Prod.fst = capNames p := by
  intro cs
  induction cs with
  | nil =>
    intro caps h
    simp [firstMatch] at h
  | cons c rest ih =>
    obtain ⟨f, n⟩ := c
    intro caps h
    rw [firstMatch] at h
    cases hmn : matchNode p n with
    | some caps0 =>
      rw [hmn] at h
      have hc : caps0 = caps := by
        simpa using h
      subst hc
      exact hp n caps0 hmn
    | none =>
      rw [hmn] at h
      exact ih caps h

mutual

theorem matchNode_names (p : PatQ) :
    ∀ (n : Node) (caps : List (String × Node)),
      matchNode p n = some caps → caps.map Prod.fst = capNames p := by
  cases p with
  | mk k koff cap pats =>
    intro n caps h
    cases n with
    | mk nk s e b cs =>
      rw [matchNode.eq_def] at h
      simp only [] at h
      by_cases hk : k = nk
      · rw [if_pos hk] at h
        obtain ⟨caps0, hm, hcaps⟩ := Option.map_eq_some'.mp h
        subst hcaps
        rw [capNames.eq_def]
        simp only []
        rw [List.map_append, matchKids_names pats cs caps0 hm]
        cases cap with
        | some nm => simp
        | none => simp
      · rw [if_neg hk] at h
        simp at h

theorem matchKids_names (pats : List (Option (String × Nat) × PatQ)) :
    ∀ (cs : List (Option String × Node)) (caps : List (String × Node)),
      matchKids pats cs = some caps → caps.map Prod.fst = kidCapNames pats := by
  cases pats with
  | nil =>
    intro cs caps h
    rw [matchKids] at h
    have hc : ([] : List (String × Node)) = caps := by
      simpa using h
    subst hc
    simp [kidCapNames.eq_def]
  | cons hd rest =>
    obtain ⟨fopt, p⟩ := hd
    intro cs caps h
    cases fopt with
    | some fo =>
      obtain ⟨f, foff⟩ := fo
      rw [matchKids] at h
      cases hfc : fieldChild f cs with
      | none =>
        rw [hfc] at h
        simp at h
      | some child =>
        rw [hfc] at h
        simp only [] at h
        cases hmn : matchNode p child with
        | none =>
          rw [hmn] at h
          simp at h
        | some caps1 =>
          rw [hmn] at h
          obtain ⟨caps2, hm2, hcaps⟩ := Option.map_eq_some'.mp h
          subst hcaps
          rw [kidCapNames.eq_def]
          simp only []
          rw [List.map_append, matchNode_names p child caps1 hmn,
            matchKids_names rest cs caps2 hm2]
    | none =>
      rw [matchKids] at h
      cases hfm : firstMatch p cs with
      | none =>
        rw [hfm] at h
        simp at h
      | some caps1 =>
        rw [hfm] at h
        obtain ⟨caps2, hm2, hcaps⟩ := Option.map_eq_some'.mp h
        subst hcaps
        rw [kidCapNames.eq_def]
        simp only []
        rw [List.map_append,
          firstMatch_names_of p (matchNode_names p) cs caps1 hfm,
          matchKids_names rest cs caps2 hm2]

end

theorem preorder_parseStmt_keys (o : Nat) (c : List Char) :
    ∀ (ks : String) (kn : Nat),
      (ks, kn) ∈ (preorder (parseStmt o c)).map nodeKey →
      o ≤ kn ∧ kn ≤ o + c.length ∧ ks ≠ "module" := by
  unfold parseStmt
  cases h : recognizeDef c with
  | some v =>
    obtain ⟨ns, ilen, ps, pe⟩ := v
    obtain ⟨hns, hilen, hps, hpe, hlen⟩ := recognizeDef_spec h
    intro ks kn hk
    simp [preorder, preKids, nodeKey, Node.kind, Node.startB] at hk
    rcases hk with ⟨h1, h2⟩ | ⟨h1, h2⟩ | ⟨h1, h2⟩ | ⟨h1, h2⟩ | ⟨h1, h2⟩ <;>
      subst h1 <;> subst h2 <;>
      exact ⟨by omega, by omega, by simp⟩
  | none =>
    by_cases hd : startsWithDef c <;>
    · intro ks kn hk
      simp [hd, preorder, preKids, nodeKey, Node.kind, Node.startB] at hk
      obtain ⟨h1, h2⟩ := hk
      subst h1
      subst h2
      exact ⟨le_rfl, by omega, by simp⟩

theorem preorder_parseStmt_keys_nodup (o : Nat) (c : List Char) :
    ((preorder (parseStmt o c)).map nodeKey).Nodup := by
  unfold parseStmt
  cases h : recognizeDef c with
  | some v =>
    obtain ⟨ns, ilen, ps, pe⟩ := v
    simp [preorder, preKids, nodeKey, Node.kind, Node.startB]
  | none =>
    by_cases hd : startsWithDef c <;>
      simp [hd, preorder, preKids, nodeKey]

theorem preorder_parseFull_keys_nodup (src : List Char) :
    ((preorder (parseFull src)).map nodeKey).Nodup := by
  rw [parseFull]
  simp only [preorder, List.map_cons, preKids_eq, List.map_map]
  rw [List.nodup_cons]
  constructor
  · intro hmem
    rw [List.map_flatMap] at hmem
    obtain ⟨a, ha, hk⟩ := List.mem_flatMap.mp hmem
    obtain ⟨⟨o, cc⟩, hseg, hae⟩ := List.mem_map.mp ha
    refine (preorder_parseStmt_keys o cc "module" 0 ?_).2.2 rfl
    rw [← hae] at hk
    simpa [nodeKey, Node.kind, Node.startB] using hk
  · rw [List.map_flatMap, List.nodup_flatMap]
    constructor
    · intro a ha
      obtain ⟨⟨o, cc⟩, hseg, hae⟩ := List.mem_map.mp ha
      rw [← hae]
      simpa using preorder_parseStmt_keys_nodup o cc
    · refine (segments_pairwise src).map _ ?_
      rintro ⟨o1, c1⟩ ⟨o2, c2⟩ hlt
      simp only [Function.onFun]
      rintro ⟨ks, kn⟩ hk1 hk2
      have h1 := (preorder_parseStmt_keys o1 c1 ks kn (by simpa using hk1)).2.1
      have h2 := (preorder_parseStmt_keys o2 c2 ks kn (by simpa using hk2)).1
      simp only [] at hlt
      omega

theorem preorder_nodup_of_parse (t : SyntaxTree) (h : IsParseResult t) :
    (preorder t.root).Nodup := by
  rw [isParseResult_root h]
  exact List.Nodup.of_map nodeKey (preorder_parseFull_keys_nodup t.src)

/-- C7: query execution visits the tree in pre-order (parent before
children, children left to right), no node of a parsed tree is visited
twice in one traversal, and each structural match emits one capture per
named sub-pattern in left-to-right depth-first order. -/
theorem query_traversal_preorder :
    (∀ (q : Query) (t : Node),
        executeQ q t = (preorder t).flatMap (capsAt q.pat)) ∧
    (∀ t : SyntaxTree, IsParseResult t → (preorder t.root).Nodup) ∧
    (∀ (p : PatQ) (n : Node) (caps : List (String × Node)),
        matchNode p n = some caps → caps.map Prod.fst = capNames p) :=
  ⟨fun q t => execute_eq_capturesList q t, preorder_nodup_of_parse,
    matchNode_names⟩

/-- Witness for C7: the scenario tree has no repeated node in its pre-order
traversal, and matching the demonstration pattern at the scenario source's
function-definition node emits exactly the pattern's one capture name. -/
theorem query_traversal_preorder_witness :
    (preorder (parse PYTHON "def f(:".data none).root).Nodup ∧
      [("fn", Node.mk "identifier" 4 13 false [])].map Prod.fst =
        capNames fnPat :=
  ⟨query_traversal_preorder.2.1 _ (IsParseResult.full PYTHON _),
    query_traversal_preorder.2.2 fnPat
      (Node.mk "function_definition" 0 22 false
        [(none, Node.mk "def" 0 3 false []),
         (some "name", Node.mk "identifier" 4 13 false []),
         (some "parameters", Node.mk "parameters" 13 16 false []),
         (some "body", Node.mk "block" 17 22 false [])])
      [("fn", Node.mk "identifier" 4 13 false [])]
      (by simp [matchNode, matchKids, firstMatch, fieldChild, fnPat])⟩
